import Mathlib

/-!
Verification of the Quamplex DSP Tools library (qx_math.h, qx_fader.h,
qx_smoother.h, qx_randomizer.h, randomizer.c) against its specification.

Machine floats are modelled by exact rationals (ℚ), 32-bit unsigned
integers by naturals reduced mod 2^32.  A C cast `(int)x` truncates
toward zero; it is modelled by `ctrunc`.  Stateful C functions become
pure functions from state to state (paired with the returned value).
-/

namespace QxDSP

/-- C cast `(int)x`: truncation toward zero. -/
def ctrunc (q : ℚ) : ℤ := if 0 ≤ q then ⌊q⌋ else -⌊-q⌋

/-- `UINT32_MAX`. -/
def UINT32_MAX : ℕ := 4294967295

/-- `qx_clamp_float` from qx_math.h: clamp `value` into `[lo, hi]`. -/
def qx_clamp_float (value lo hi : ℚ) : ℚ :=
  if value < lo then lo else if value > hi then hi else value

/-! ### qx_math.h: ring-buffer linear interpolation

The source computes `i1 = (int)index`, `i2 = i1 + 1`, wraps each back by
`size` once if `≥ size`, then reads `buf[i1] + k*(buf[i2]-buf[i1])` with
`k = index - i1` taken after the wrap.  The buffer is modelled as a total
function `ℤ → ℚ` (arbitrary memory), so that in-bounds claims are claims
about the computed index values. -/

/-- First (wrapped) read position of `qx_ring_interp_linear`. -/
def ring_i1 (index : ℚ) (size : ℤ) : ℤ :=
  let i1 := ctrunc index
  if i1 ≥ size then i1 - size else i1

/-- Second (wrapped) read position of `qx_ring_interp_linear`. -/
def ring_i2 (index : ℚ) (size : ℤ) : ℤ :=
  let i2 := ctrunc index + 1
  if i2 ≥ size then i2 - size else i2

/-- `qx_ring_interp_linear` from qx_math.h. -/
def qx_ring_interp_linear (buf : ℤ → ℚ) (index : ℚ) (size : ℤ) : ℚ :=
  let i1 := ring_i1 index size
  let i2 := ring_i2 index size
  let k := index - (i1 : ℚ)
  buf i1 + k * (buf i2 - buf i1)

/-- The interpolation formula as the specification words it: `i1 = floor(index)`,
`i2 = i1 + 1`, each reduced by `size` once if `≥ size`, `k = index - i1`,
result `buf[i1] + k*(buf[i2] - buf[i1])`. -/
def ringInterpSpec (buf : ℤ → ℚ) (index : ℚ) (size : ℤ) : ℚ :=
  let j1 := ⌊index⌋
  let j2 := j1 + 1
  let i1 := if j1 ≥ size then j1 - size else j1
  let i2 := if j2 ≥ size then j2 - size else j2
  let k := index - (i1 : ℚ)
  buf i1 + k * (buf i2 - buf i1)

/-- The concrete 4-element buffer `[1,2,3,4]` used by the spec's example. -/
def buf4 : ℤ → ℚ := fun i => if i = 0 then 1 else if i = 1 then 2 else if i = 2 then 3 else if i = 3 then 4 else 0

/-! ### qx_math.h: qx_wrapf

`qx_wrapf` runs two `while` loops (`x += max` while `x < 0`, then
`x -= max` while `x ≥ max`).  Each loop is modelled with explicit fuel,
returning `none` when the fuel runs out before the loop exits; the
function terminates on an input iff some fuel suffices. -/

/-- First loop of `qx_wrapf`: `while (x < 0.0f) x += max`, with fuel. -/
def wrapLoopNeg : ℕ → ℚ → ℚ → Option ℚ
  | 0, _, _ => none
  | n + 1, x, m => if x < 0 then wrapLoopNeg n (x + m) m else some x

/-- Second loop of `qx_wrapf`: `while (x >= max) x -= max`, with fuel. -/
def wrapLoopPos : ℕ → ℚ → ℚ → Option ℚ
  | 0, _, _ => none
  | n + 1, x, m => if x ≥ m then wrapLoopPos n (x - m) m else some x

/-- `qx_wrapf` from qx_math.h, fuelled: both loops in sequence. -/
def qx_wrapf (fuel : ℕ) (x m : ℚ) : Option ℚ :=
  (wrapLoopNeg fuel x m).bind fun y => wrapLoopPos fuel y m

/-- `qx_wrapf` diverges at `(x, m)`: no amount of fuel makes it return. -/
def qx_wrapf_diverges (x m : ℚ) : Prop := ∀ fuel, qx_wrapf fuel x m = none

/-! ### qx_fader.h -/

/-- Fader state (`struct qx_fader`). -/
structure QxFader where
  fade : ℚ
  step : ℚ
  enabled : Bool
  deriving DecidableEq

/-- `qx_fader_init`: fade 0, disabled, step from fade time (ms) and rate. -/
def qx_fader_init (fadeTime sample_rate : ℚ) : QxFader :=
  { fade := 0
    enabled := false
    step := if fadeTime ≤ 0 then 1 else 1 / ((fadeTime / 1000) * sample_rate) }

/-- `qx_fader_enable`: set direction and snap fade to the opposite extreme. -/
def qx_fader_enable (f : QxFader) (enabled : Bool) : QxFader :=
  { f with enabled := enabled, fade := if enabled then 0 else 1 }

/-- `qx_fader_fade`: advance fade by `±step`, clamp to `[0,1]`, return scaled sample. -/
def qx_fader_fade (f : QxFader) (val : ℚ) : QxFader × ℚ :=
  let fade := f.fade + (if f.enabled then f.step else -f.step)
  let fade := qx_clamp_float fade 0 1
  ({ f with fade := fade }, val * fade)

/-- One mutating fader call: either `qx_fader_enable` or `qx_fader_fade`. -/
inductive FaderOp where
  | enable (b : Bool)
  | fade (val : ℚ)

/-- Run a sequence of fader calls from a starting state. -/
def runFaderOps : List FaderOp → QxFader → QxFader
  | [], f => f
  | FaderOp.enable b :: ops, f => runFaderOps ops (qx_fader_enable f b)
  | FaderOp.fade v :: ops, f => runFaderOps ops (qx_fader_fade f v).1

/-- The state after one `qx_fader_fade` call (the returned sample discarded). -/
def faderStep (f : QxFader) : QxFader := (qx_fader_fade f 0).1

/-! ### qx_smoother.h -/

/-- Smoother state (`struct qx_smoother`); `frames` is a `size_t`. -/
structure QxSmoother where
  current : ℚ
  target : ℚ
  step : ℚ
  frames : ℕ
  deriving DecidableEq

/-- `qx_smoother_init`: current = target = initial, frames coerced to ≥ 1, step 0. -/
def qx_smoother_init (initial : ℚ) (frames : ℕ) : QxSmoother :=
  { current := initial
    target := initial
    frames := if frames > 0 then frames else 1
    step := 0 }

/-- `qx_smoother_set_target`: set target and recompute step from current. -/
def qx_smoother_set_target (s : QxSmoother) (t : ℚ) : QxSmoother :=
  { s with target := t, step := (t - s.current) / (s.frames : ℚ) }

/-- `qx_smoother_next`: no-op at target, else add step and clamp on overshoot;
returns the new state and the returned value. -/
def qx_smoother_next (s : QxSmoother) : QxSmoother × ℚ :=
  if s.current = s.target then (s, s.current)
  else
    let c := s.current + s.step
    let c := if (s.step > 0 ∧ c > s.target) ∨ (s.step < 0 ∧ c < s.target) then s.target else c
    ({ s with current := c }, c)

/-- `qx_smoother_get`: current value, no mutation. -/
def qx_smoother_get (s : QxSmoother) : ℚ := s.current

/-- The state after one `qx_smoother_next` call. -/
def smootherStep (s : QxSmoother) : QxSmoother := (qx_smoother_next s).1

/-- One mutating smoother call after init. -/
inductive SmootherOp where
  | setTarget (t : ℚ)
  | next

/-- Run a sequence of smoother calls from a starting state. -/
def runSmootherOps : List SmootherOp → QxSmoother → QxSmoother
  | [], s => s
  | SmootherOp.setTarget t :: ops, s => runSmootherOps ops (qx_smoother_set_target s t)
  | SmootherOp.next :: ops, s => runSmootherOps ops (smootherStep s)

/-! ### Randomizer, header variant (qx_randomizer.h, static inline) -/

/-- Randomizer state of the header variant (`struct qx_randomizer` in
qx_randomizer.h), with the precomputed caches. -/
structure QxRandomizerH where
  seed : ℕ
  min : ℚ
  max : ℚ
  resolution : ℚ
  range : ℚ
  inv_max_uint : ℚ
  max_steps : ℤ
  deriving DecidableEq

namespace QxRandomizerH

/-- `qx_randomizer_init` (header variant): fixed seed 856382025, caches precomputed. -/
def qx_randomizer_init (mn mx resolution : ℚ) : QxRandomizerH :=
  { seed := 856382025
    min := mn
    max := mx
    resolution := resolution
    range := mx - mn
    inv_max_uint := 1 / (UINT32_MAX : ℚ)
    max_steps := ctrunc ((mx - mn) / resolution + 1/2) }

/-- `qx_randomizer_set_seed` (header variant). -/
def qx_randomizer_set_seed (r : QxRandomizerH) (seed : ℕ) : QxRandomizerH :=
  { r with seed := seed }

/-- `qx_randomizer_get_float` (header variant): LCG step, normalize,
bucket-quantize with a clamp of the bucket index, map to `min + step*resolution`. -/
def qx_randomizer_get_float (r : QxRandomizerH) : QxRandomizerH × ℚ :=
  let seed := (1664525 * r.seed + 1013904223) % 4294967296
  let normalized : ℚ := (seed : ℚ) * r.inv_max_uint
  let step : ℤ := ctrunc (normalized * ((r.max_steps : ℚ) + 1))
  let step := if step > r.max_steps then r.max_steps else step
  ({ r with seed := seed }, r.min + (step : ℚ) * r.resolution)

/-- The state after one header-variant draw. -/
def drawStep (r : QxRandomizerH) : QxRandomizerH := (qx_randomizer_get_float r).1

/-- Value returned by the `(k+1)`-th draw from state `r` (`k = 0` is the first). -/
def nthDraw (r : QxRandomizerH) (k : ℕ) : ℚ :=
  (qx_randomizer_get_float (drawStep^[k] r)).2

end QxRandomizerH

/-! ### Randomizer, .c variant (radomizer.c) -/

/-- Randomizer state of the .c variant (`struct qx_randomizer` in radomizer.c). -/
structure QxRandomizerC where
  min : ℚ
  max : ℚ
  resolution : ℚ
  seed : ℕ
  deriving DecidableEq

namespace QxRandomizerC

/-- Default fixed seed `0x12345678` of the .c variant. -/
def qx_randomizer_default_seed : ℕ := 0x12345678

/-- `qx_randomizer_next_seed`: 32-bit LCG step `(A*s + C) & 0xFFFFFFFF`. -/
def qx_randomizer_next_seed (s : ℕ) : ℕ := (1664525 * s + 1013904223) % 4294967296

/-- `qx_randomizer_init` (.c variant): resolution ≤ 0 is coerced to 1.0. -/
def qx_randomizer_init (mn mx resolution : ℚ) : QxRandomizerC :=
  { min := mn
    max := mx
    resolution := if resolution ≤ 0 then 1 else resolution
    seed := qx_randomizer_default_seed }

/-- `qx_randomizer_get_float` (.c variant): LCG step, interpolate into the range,
round to the nearest resolution multiple, clamp to `[min, max]`. -/
def qx_randomizer_get_float (r : QxRandomizerC) : QxRandomizerC × ℚ :=
  let seed := qx_randomizer_next_seed r.seed
  let normalized : ℚ := (seed : ℚ) / (UINT32_MAX : ℚ)
  let range := r.max - r.min
  let value := r.min + normalized * range
  let steps := (value - r.min) / r.resolution
  let steps_int : ℤ := ctrunc (steps + 1/2)
  let quantized := r.min + (steps_int : ℚ) * r.resolution
  let quantized :=
    if quantized < r.min then r.min
    else if quantized > r.max then r.max
    else quantized
  ({ r with seed := seed }, quantized)

end QxRandomizerC

/-- The smoother of the spec's worked example: `init(5.0, 4)` then `setTarget(9.0)`. -/
def smootherDemo : QxSmoother := qx_smoother_set_target (qx_smoother_init 5 4) 9

/-! ## Helper lemmas -/

theorem ctrunc_eq_floor {q : ℚ} (h : 0 ≤ q) : ctrunc q = ⌊q⌋ := if_pos h

theorem clamp01_bounds (x : ℚ) : 0 ≤ qx_clamp_float x 0 1 ∧ qx_clamp_float x 0 1 ≤ 1 := by
  unfold qx_clamp_float
  split_ifs <;> constructor <;> linarith

theorem fader_fade_state (f : QxFader) (val : ℚ) :
    (qx_fader_fade f val).1 =
      { f with fade := qx_clamp_float (f.fade + (if f.enabled then f.step else -f.step)) 0 1 } := rfl

theorem runFaderOps_fade_bounds (ops : List FaderOp) (f : QxFader)
    (h0 : 0 ≤ f.fade) (h1 : f.fade ≤ 1) :
    0 ≤ (runFaderOps ops f).fade ∧ (runFaderOps ops f).fade ≤ 1 := by
  induction ops generalizing f with
  | nil => exact ⟨h0, h1⟩
  | cons op ops ih =>
    cases op with
    | enable b =>
      refine ih (qx_fader_enable f b) ?_ ?_ <;>
        · simp only [qx_fader_enable]
          split <;> norm_num
    | fade v =>
      refine ih (qx_fader_fade f v).1 ?_ ?_
      · exact (clamp01_bounds _).1
      · exact (clamp01_bounds _).2

theorem smootherStep_fields (s : QxSmoother) :
    (smootherStep s).target = s.target ∧ (smootherStep s).step = s.step ∧
      (smootherStep s).frames = s.frames := by
  unfold smootherStep qx_smoother_next
  split <;> exact ⟨rfl, rfl, rfl⟩

theorem runSmootherOps_frames (ops : List SmootherOp) (s : QxSmoother) :
    (runSmootherOps ops s).frames = s.frames := by
  induction ops generalizing s with
  | nil => rfl
  | cons op ops ih =>
    cases op with
    | setTarget t => exact ih (qx_smoother_set_target s t)
    | next => exact (ih (smootherStep s)).trans (smootherStep_fields s).2.2

/-! ## Claims -/

/-- Claim C3, counterexample: the header-variant `qx_randomizer_init` called with
resolution 0 (which is ≤ 0) stores resolution 0, not the claimed default 1.0. -/
theorem C3_header_init_keeps_nonpositive_resolution :
    (QxRandomizerH.qx_randomizer_init 0 1 0).resolution = 0 ∧
      (QxRandomizerH.qx_randomizer_init 0 1 0).resolution ≠ 1 ∧ (0 : ℚ) ≤ 0 := by
  refine ⟨rfl, ?_, le_refl 0⟩
  intro h
  exact absurd h (by norm_num [QxRandomizerH.qx_randomizer_init])

/-- Claim C3, amended: the .c-variant `qx_randomizer_init` stores resolution 1.0
when the argument is ≤ 0 and the argument unchanged otherwise, while the
header-variant `qx_randomizer_init` stores the argument unchanged in all cases. -/
theorem C3_resolution_defaulting (mn mx rs : ℚ) :
    (QxRandomizerC.qx_randomizer_init mn mx rs).resolution = (if rs ≤ 0 then 1 else rs) ∧
      (QxRandomizerH.qx_randomizer_init mn mx rs).resolution = rs :=
  ⟨rfl, rfl⟩

/-- Claim C4: starting from any `qx_fader_init` state, the invariant
`0 ≤ fade ≤ 1` holds after every finite sequence of `qx_fader_enable` and
`qx_fader_fade` calls, and each `qx_fader_fade val` call returns
`val * f` where `f` is the updated fade value, itself within `[0, 1]`. -/
theorem C4_fader_invariant :
    (∀ (ops : List FaderOp) (ft sr : ℚ),
        0 ≤ (runFaderOps ops (qx_fader_init ft sr)).fade ∧
          (runFaderOps ops (qx_fader_init ft sr)).fade ≤ 1) ∧
      (∀ (f : QxFader) (val : ℚ),
        (qx_fader_fade f val).2 = val * (qx_fader_fade f val).1.fade ∧
          0 ≤ (qx_fader_fade f val).1.fade ∧ (qx_fader_fade f val).1.fade ≤ 1) := by
  constructor
  · intro ops ft sr
    exact runFaderOps_fade_bounds ops _ (le_refl 0) zero_le_one
  · intro f val
    exact ⟨rfl, (clamp01_bounds _).1, (clamp01_bounds _).2⟩

/-- Claim C9: after `qx_smoother_init`, `frames` is at least 1 (a count of 0 is
coerced to 1), no subsequent `qx_smoother_set_target` or `qx_smoother_next`
call modifies `frames`, and the divisor `(float)frames` used by
`qx_smoother_set_target` is never zero. -/
theorem C9_smoother_frames_positive :
    ∀ (ops : List SmootherOp) (initial : ℚ) (frames : ℕ),
      1 ≤ (runSmootherOps ops (qx_smoother_init initial frames)).frames ∧
        (runSmootherOps ops (qx_smoother_init initial frames)).frames =
          (qx_smoother_init initial frames).frames ∧
        ((runSmootherOps ops (qx_smoother_init initial frames)).frames : ℚ) ≠ 0 := by
  intro ops initial frames
  have hpres := runSmootherOps_frames ops (qx_smoother_init initial frames)
  have hinit : 1 ≤ (qx_smoother_init initial frames).frames := by
    simp only [qx_smoother_init]
    split <;> omega
  refine ⟨hpres ▸ hinit, hpres, ?_⟩
  rw [hpres]
  exact_mod_cast Nat.one_le_iff_ne_zero.mp hinit

/-- Claim C1: the header-variant `qx_randomizer_get_float` can return a value
strictly above `max` even with `max ≥ min` and `resolution > 0`:
with `init(0, 1, 3/8)` and seed 1327 the draw is 9/8 > 1 (the .c variant
clamps its result, but the header variant does not). -/
theorem C1_header_draw_exceeds_max :
    (QxRandomizerH.qx_randomizer_set_seed (QxRandomizerH.qx_randomizer_init 0 1 (3/8)) 1327).min ≤
        (QxRandomizerH.qx_randomizer_set_seed (QxRandomizerH.qx_randomizer_init 0 1 (3/8)) 1327).max ∧
      0 < (QxRandomizerH.qx_randomizer_set_seed
            (QxRandomizerH.qx_randomizer_init 0 1 (3/8)) 1327).resolution ∧
      (QxRandomizerH.qx_randomizer_get_float
        (QxRandomizerH.qx_randomizer_set_seed
          (QxRandomizerH.qx_randomizer_init 0 1 (3/8)) 1327)).2 = 9/8 ∧
      (QxRandomizerH.qx_randomizer_set_seed (QxRandomizerH.qx_randomizer_init 0 1 (3/8)) 1327).max <
        (QxRandomizerH.qx_randomizer_get_float
          (QxRandomizerH.qx_randomizer_set_seed
            (QxRandomizerH.qx_randomizer_init 0 1 (3/8)) 1327)).2 := by
  have hval : (QxRandomizerH.qx_randomizer_get_float
      (QxRandomizerH.qx_randomizer_set_seed
        (QxRandomizerH.qx_randomizer_init 0 1 (3/8)) 1327)).2 = 9/8 := by
    norm_num [QxRandomizerH.qx_randomizer_get_float, QxRandomizerH.qx_randomizer_set_seed,
      QxRandomizerH.qx_randomizer_init, ctrunc, UINT32_MAX, Int.floor_eq_iff]
  refine ⟨by norm_num [QxRandomizerH.qx_randomizer_set_seed, QxRandomizerH.qx_randomizer_init],
    by norm_num [QxRandomizerH.qx_randomizer_set_seed, QxRandomizerH.qx_randomizer_init],
    hval, ?_⟩
  rw [hval]
  norm_num [QxRandomizerH.qx_randomizer_set_seed, QxRandomizerH.qx_randomizer_init]

/-- Claim C6: two independently constructed header-variant randomizers, both
built by `qx_randomizer_init` with equal min/max/resolution and then
`qx_randomizer_set_seed` with the same seed, produce identical draw sequences
value-for-value; the sequence is a pure function of the constructed state, so
it is exactly reproducible. -/
theorem C6_reproducible_draws (sd : ℕ) (mn mx rs : ℚ) (r1 r2 : QxRandomizerH)
    (h1 : r1 = QxRandomizerH.qx_randomizer_set_seed (QxRandomizerH.qx_randomizer_init mn mx rs) sd)
    (h2 : r2 = QxRandomizerH.qx_randomizer_set_seed (QxRandomizerH.qx_randomizer_init mn mx rs) sd) :
    ∀ k, QxRandomizerH.nthDraw r1 k = QxRandomizerH.nthDraw r2 k := by
  subst h1
  subst h2
  intro k
  rfl

/-- Claim C6, witness: two instances with `init(0, 1, 1/10)` and seed 42 agree
on their third draw. -/
theorem C6_reproducible_draws_witness :
    QxRandomizerH.nthDraw
        (QxRandomizerH.qx_randomizer_set_seed (QxRandomizerH.qx_randomizer_init 0 1 (1/10)) 42) 2 =
      QxRandomizerH.nthDraw
        (QxRandomizerH.qx_randomizer_set_seed (QxRandomizerH.qx_randomizer_init 0 1 (1/10)) 42) 2 :=
  C6_reproducible_draws 42 0 1 (1/10) _ _ rfl rfl 2

/-- Claim C8: under the precondition `size ≥ 1` and `0 ≤ index < size + 1`,
`qx_ring_interp_linear` computes exactly the claimed formula
(`i1 = floor(index)`, `i2 = i1 + 1`, each reduced by `size` once if `≥ size`,
`k = index - i1`, result `buf[i1] + k*(buf[i2] - buf[i1])`), and on the
4-element buffer `[1,2,3,4]` the value at index 3.5 is 2.5. -/
theorem C8_ring_interp (buf : ℤ → ℚ) (index : ℚ) (size : ℤ)
    (hs : 1 ≤ size) (h0 : 0 ≤ index) (h1 : index < (size : ℚ) + 1) :
    qx_ring_interp_linear buf index size = ringInterpSpec buf index size ∧
      qx_ring_interp_linear buf4 (7/2) 4 = 5/2 := by
  constructor
  · unfold qx_ring_interp_linear ringInterpSpec ring_i1 ring_i2
    rw [ctrunc_eq_floor h0]
  · have hf : ⌊(7/2 : ℚ)⌋ = 3 := by norm_num [Int.floor_eq_iff]
    have hi1 : ring_i1 (7/2) 4 = 3 := by norm_num [ring_i1, ctrunc, hf]
    have hi2 : ring_i2 (7/2) 4 = 0 := by norm_num [ring_i2, ctrunc, hf]
    simp only [qx_ring_interp_linear, hi1, hi2]
    norm_num [buf4]

/-- Claim C8, witness: the preconditions hold at `buf4`, index 3.5, size 4,
and there the source function agrees with the spec formula and returns 2.5. -/
theorem C8_ring_interp_witness :
    ((1:ℤ) ≤ 4 ∧ (0:ℚ) ≤ 7/2 ∧ (7/2 : ℚ) < ((4:ℤ) : ℚ) + 1) ∧
      (qx_ring_interp_linear buf4 (7/2) 4 = ringInterpSpec buf4 (7/2) 4 ∧
        qx_ring_interp_linear buf4 (7/2) 4 = 5/2) :=
  ⟨⟨by norm_num, by norm_num, by norm_num⟩,
    C8_ring_interp buf4 (7/2) 4 (by norm_num) (by norm_num) (by norm_num)⟩

/-- Claim C10, counterexample: the claim fails in both directions it draws the
boundary. At `index = -1/2`, `size = 4` (a negative index, outside the claimed
precondition) both computed positions are 0 and 1, inside `[0, size)`; and at
`size = 1`, `index = 3/2` (inside the claimed precondition `0 ≤ index < size+1`)
the second position is 1, outside `[0, size)`. -/
theorem C10_bounds_counterexample :
    ((-1/2 : ℚ) < 0 ∧ 0 ≤ ring_i1 (-1/2) 4 ∧ ring_i1 (-1/2) 4 < 4 ∧
        0 ≤ ring_i2 (-1/2) 4 ∧ ring_i2 (-1/2) 4 < 4) ∧
      ((1:ℤ) ≤ 1 ∧ (0:ℚ) ≤ 3/2 ∧ (3/2 : ℚ) < ((1:ℤ) : ℚ) + 1 ∧ ¬ ring_i2 (3/2) 1 < 1) := by
  have hf0 : ⌊(1/2 : ℚ)⌋ = 0 := by norm_num [Int.floor_eq_iff]
  have hf1 : ⌊(3/2 : ℚ)⌋ = 1 := by norm_num [Int.floor_eq_iff]
  have hi1 : ring_i1 (-1/2) 4 = 0 := by norm_num [ring_i1, ctrunc, hf0]
  have hi2 : ring_i2 (-1/2) 4 = 1 := by norm_num [ring_i2, ctrunc, hf0]
  have hi2b : ring_i2 (3/2) 1 = 1 := by norm_num [ring_i2, ctrunc, hf1]
  refine ⟨⟨by norm_num, ?_, ?_, ?_, ?_⟩, by norm_num, by norm_num, by norm_num, ?_⟩ <;>
    simp [hi1, hi2, hi2b]

/-- Claim C10, amended: for `size ≥ 2` and `0 ≤ index < size + 1` both
computed positions of `qx_ring_interp_linear` lie within `[0, size)`; for
`size ≥ 1`, an index `≤ -1` puts the first position below 0, and an index
`≥ 2*size - 1` puts the second position at or above `size`. -/
theorem C10_ring_positions (index : ℚ) (size : ℤ) :
    (2 ≤ size → 0 ≤ index → index < (size : ℚ) + 1 →
        0 ≤ ring_i1 index size ∧ ring_i1 index size < size ∧
          0 ≤ ring_i2 index size ∧ ring_i2 index size < size) ∧
      (1 ≤ size → index ≤ -1 → ring_i1 index size < 0) ∧
      (1 ≤ size → ((2 * size - 1 : ℤ) : ℚ) ≤ index → size ≤ ring_i2 index size) := by
  refine ⟨?_, ?_, ?_⟩
  · intro hs h0 h1
    have hfl : ctrunc index = ⌊index⌋ := ctrunc_eq_floor h0
    have hge : (0:ℤ) ≤ ⌊index⌋ := Int.floor_nonneg.mpr h0
    have hlt : ⌊index⌋ < size + 1 := by
      rw [Int.floor_lt]
      push_cast
      linarith
    refine ⟨?_, ?_, ?_, ?_⟩ <;>
      · simp only [ring_i1, ring_i2, hfl]
        split_ifs <;> omega
  · intro hs hneg
    have hx : ¬ (0 ≤ index) := not_le.mpr (by linarith)
    have h1 : (1:ℤ) ≤ ⌊-index⌋ := by
      rw [Int.le_floor]
      push_cast
      linarith
    have hct : ctrunc index ≤ -1 := by
      rw [ctrunc, if_neg hx]
      omega
    simp only [ring_i1]
    split_ifs <;> omega
  · intro hs hbig
    have hz : ((1:ℤ) : ℚ) ≤ ((2 * size - 1 : ℤ) : ℚ) := by
      exact_mod_cast (by omega : (1:ℤ) ≤ 2 * size - 1)
    have hbig2 := hbig
    have h0 : 0 ≤ index := by
      push_cast at hz hbig2
      linarith
    have hfl : ctrunc index = ⌊index⌋ := ctrunc_eq_floor h0
    have hge : 2 * size - 1 ≤ ⌊index⌋ := Int.le_floor.mpr hbig
    simp only [ring_i2, hfl]
    split_ifs <;> omega

/-- Claim C10, witness: the amended bounds at `index = 3.5, size = 4`,
`index = -1.5, size = 4`, and `index = 7.5, size = 4`. -/
theorem C10_ring_positions_witness :
    (0 ≤ ring_i1 (7/2) 4 ∧ ring_i1 (7/2) 4 < 4 ∧ 0 ≤ ring_i2 (7/2) 4 ∧ ring_i2 (7/2) 4 < 4) ∧
      ring_i1 (-(3/2)) 4 < 0 ∧ (4:ℤ) ≤ ring_i2 (15/2) 4 :=
  ⟨(C10_ring_positions (7/2) 4).1 (by norm_num) (by norm_num) (by norm_num),
    (C10_ring_positions (-(3/2)) 4).2.1 (by norm_num) (by norm_num),
    (C10_ring_positions (15/2) 4).2.2 (by norm_num) (by norm_num)⟩

theorem fader_enabled_closed (st : ℚ) (hs : 0 < st) (k : ℕ) :
    faderStep^[k] ⟨0, st, true⟩ = ⟨min ((k:ℚ) * st) 1, st, true⟩ := by
  induction k with
  | zero => simp
  | succ k ih =>
    rw [Function.iterate_succ_apply', ih]
    have h0 : (0:ℚ) ≤ (k:ℚ) * st := by positivity
    have hexp : (((k+1):ℕ):ℚ) * st = (k:ℚ) * st + st := by push_cast; ring
    show QxFader.mk (qx_clamp_float (min ((k:ℚ) * st) 1 + st) 0 1) st true = _
    rw [QxFader.mk.injEq]
    refine ⟨?_, rfl, rfl⟩
    rw [hexp]
    unfold qx_clamp_float
    simp only [min_def]
    split_ifs <;> linarith

theorem fader_disabled_closed (st : ℚ) (hs : 0 < st) (k : ℕ) :
    faderStep^[k] ⟨1, st, false⟩ = ⟨max (1 - (k:ℚ) * st) 0, st, false⟩ := by
  induction k with
  | zero => simp
  | succ k ih =>
    rw [Function.iterate_succ_apply', ih]
    have h0 : (0:ℚ) ≤ (k:ℚ) * st := by positivity
    have hexp : (((k+1):ℕ):ℚ) * st = (k:ℚ) * st + st := by push_cast; ring
    show QxFader.mk (qx_clamp_float (max (1 - (k:ℚ) * st) 0 + -st) 0 1) st false = _
    rw [QxFader.mk.injEq]
    refine ⟨?_, rfl, rfl⟩
    rw [hexp]
    unfold qx_clamp_float
    simp only [max_def]
    split_ifs <;> linarith

/-- Claim C5: for a fader with `0 < step ≤ 1`, after `qx_fader_enable(true)` the
fade values of successive `qx_fader_fade` calls are non-decreasing, reach
exactly 1 within `⌈1/step⌉` calls, and stay at 1 thereafter; after
`qx_fader_enable(false)`, they are non-increasing, reach exactly 0 within
`⌈1/step⌉` calls, and stay at 0. -/
theorem C5_fader_convergence (f : QxFader) (h0 : 0 < f.step) (h1 : f.step ≤ 1) :
    (∀ k : ℕ, (faderStep^[k] (qx_fader_enable f true)).fade ≤
        (faderStep^[k+1] (qx_fader_enable f true)).fade) ∧
      (∀ k : ℕ, ⌈1 / f.step⌉₊ ≤ k → (faderStep^[k] (qx_fader_enable f true)).fade = 1) ∧
      (∀ k : ℕ, (faderStep^[k+1] (qx_fader_enable f false)).fade ≤
        (faderStep^[k] (qx_fader_enable f false)).fade) ∧
      (∀ k : ℕ, ⌈1 / f.step⌉₊ ≤ k → (faderStep^[k] (qx_fader_enable f false)).fade = 0) := by
  have het : qx_fader_enable f true = ⟨0, f.step, true⟩ := rfl
  have hef : qx_fader_enable f false = ⟨1, f.step, false⟩ := rfl
  refine ⟨?_, ?_, ?_, ?_⟩
  · intro k
    rw [het, fader_enabled_closed f.step h0 k, fader_enabled_closed f.step h0 (k+1)]
    have hk : (k:ℚ) * f.step ≤ (((k+1):ℕ):ℚ) * f.step := by
      push_cast
      nlinarith
    exact min_le_min hk le_rfl
  · intro k hk
    rw [het, fader_enabled_closed f.step h0 k]
    have hq : 1 / f.step ≤ (k:ℚ) := Nat.ceil_le.mp hk
    have h1k : (1:ℚ) ≤ (k:ℚ) * f.step := (div_le_iff h0).mp hq
    exact min_eq_right h1k
  · intro k
    rw [hef, fader_disabled_closed f.step h0 k, fader_disabled_closed f.step h0 (k+1)]
    have hk : (k:ℚ) * f.step ≤ (((k+1):ℕ):ℚ) * f.step := by
      push_cast
      nlinarith
    exact max_le_max (by linarith) le_rfl
  · intro k hk
    rw [hef, fader_disabled_closed f.step h0 k]
    have hq : 1 / f.step ≤ (k:ℚ) := Nat.ceil_le.mp hk
    have h1k : (1:ℚ) ≤ (k:ℚ) * f.step := (div_le_iff h0).mp hq
    exact max_eq_right (by linarith)

/-- Claim C5, witness: a fader with step 1/2 satisfies the hypotheses, and after
3 calls (`⌈1/(1/2)⌉ = 2 ≤ 3`) its fade is exactly 1 when enabled and 0 when
disabled. -/
theorem C5_fader_convergence_witness :
    ((0:ℚ) < (QxFader.mk 0 (1/2) false).step ∧ (QxFader.mk 0 (1/2) false).step ≤ 1) ∧
      (faderStep^[3] (qx_fader_enable (QxFader.mk 0 (1/2) false) true)).fade = 1 ∧
      (faderStep^[3] (qx_fader_enable (QxFader.mk 0 (1/2) false) false)).fade = 0 :=
  ⟨⟨by norm_num, by norm_num⟩,
    (C5_fader_convergence (QxFader.mk 0 (1/2) false) (by norm_num) (by norm_num)).2.1 3
      (by rw [show (QxFader.mk 0 (1/2) false).step = 1/2 from rfl, Nat.ceil_le]; norm_num),
    (C5_fader_convergence (QxFader.mk 0 (1/2) false) (by norm_num) (by norm_num)).2.2.2 3
      (by rw [show (QxFader.mk 0 (1/2) false).step = 1/2 from rfl, Nat.ceil_le]; norm_num)⟩

theorem smootherStep_eq (s : QxSmoother) :
    smootherStep s = if s.current = s.target then s
      else { s with current := if (s.step > 0 ∧ s.current + s.step > s.target) ∨
          (s.step < 0 ∧ s.current + s.step < s.target) then s.target else s.current + s.step } := by
  unfold smootherStep qx_smoother_next
  split <;> rfl

theorem qx_smoother_next_val (s : QxSmoother) :
    (qx_smoother_next s).2 = (smootherStep s).current := by
  unfold smootherStep qx_smoother_next
  split <;> rfl

theorem smootherStep_at_target (s : QxSmoother) (h : s.current = s.target) :
    smootherStep s = s := by
  rw [smootherStep_eq, if_pos h]

theorem smoother_stay (s : QxSmoother) (h : s.current = s.target) (j : ℕ) :
    smootherStep^[j] s = s := by
  induction j with
  | zero => rfl
  | succ j ih => rw [Function.iterate_succ_apply', ih, smootherStep_at_target s h]

theorem smoother_closed_form (c t : ℚ) (f : ℕ) (hf : 1 ≤ f) (k : ℕ) (hk : k ≤ f) :
    smootherStep^[k] ⟨c, t, (t - c) / (f:ℚ), f⟩ =
      ⟨c + (k:ℚ) * ((t - c) / (f:ℚ)), t, (t - c) / (f:ℚ), f⟩ := by
  have hfne : ((f:ℚ)) ≠ 0 := Nat.cast_ne_zero.mpr (by omega)
  have hfd : (f:ℚ) * ((t - c) / (f:ℚ)) = t - c := by field_simp
  induction k with
  | zero => simp
  | succ k ih =>
    have hk' : k ≤ f := Nat.le_of_succ_le hk
    rw [Function.iterate_succ_apply', ih hk', smootherStep_eq]
    have hcast : (((k+1):ℕ):ℚ) = (k:ℚ) + 1 := by push_cast; ring
    have hkf : (k:ℚ) + 1 ≤ (f:ℚ) := by exact_mod_cast hk
    dsimp only
    by_cases heq : c + (k:ℚ) * ((t - c) / (f:ℚ)) = t
    · rw [if_pos heq]
      have hkltf : (k:ℚ) < (f:ℚ) := by linarith
      have h2 : ((f:ℚ) - (k:ℚ)) * ((t - c) / (f:ℚ)) = 0 := by
        have h1 : (k:ℚ) * ((t - c) / (f:ℚ)) = t - c := by linarith
        rw [sub_mul, hfd, h1, sub_self]
      have hdz : (t - c) / (f:ℚ) = 0 := by
        rcases mul_eq_zero.mp h2 with h | h
        · exact absurd h (by intro hcon; linarith [sub_eq_zero.mp hcon])
        · exact h
      rw [QxSmoother.mk.injEq]
      exact ⟨by rw [hdz]; ring, rfl, rfl, rfl⟩
    · rw [if_neg heq]
      have hcond : ¬ (((t - c) / (f:ℚ) > 0 ∧ c + (k:ℚ) * ((t - c) / (f:ℚ)) + (t - c) / (f:ℚ) > t) ∨
          ((t - c) / (f:ℚ) < 0 ∧ c + (k:ℚ) * ((t - c) / (f:ℚ)) + (t - c) / (f:ℚ) < t)) := by
        rintro (⟨hd0, hgt⟩ | ⟨hd0, hlt⟩)
        · have h3 : ((k:ℚ) + 1) * ((t - c) / (f:ℚ)) ≤ (f:ℚ) * ((t - c) / (f:ℚ)) :=
            mul_le_mul_of_nonneg_right hkf (le_of_lt hd0)
          rw [hfd] at h3
          nlinarith
        · have h3 : (f:ℚ) * ((t - c) / (f:ℚ)) ≤ ((k:ℚ) + 1) * ((t - c) / (f:ℚ)) :=
            mul_le_mul_of_nonpos_right hkf (le_of_lt hd0)
          rw [hfd] at h3
          nlinarith
      rw [if_neg hcond, QxSmoother.mk.injEq]
      exact ⟨by rw [hcast]; ring, rfl, rfl, rfl⟩

/-- Claim C2: after `qx_smoother_set_target t` on a smoother with `frames ≥ 1`,
no sequence of `qx_smoother_next` calls moves `current` past `t` in the
direction of `step`, `current` equals `t` from the `frames`-th call on, and the
spec's worked example `init(5.0, 4); setTarget(9.0)` returns exactly
6, 7, 8, 9 on four `next()` calls and 9 unchanged on the fifth. -/
theorem C2_smoother_no_overshoot (s : QxSmoother) (t : ℚ) (hf : 1 ≤ s.frames) :
    ((∀ k : ℕ,
        (0 ≤ (qx_smoother_set_target s t).step →
          (smootherStep^[k] (qx_smoother_set_target s t)).current ≤ t) ∧
        ((qx_smoother_set_target s t).step ≤ 0 →
          t ≤ (smootherStep^[k] (qx_smoother_set_target s t)).current)) ∧
      (∀ k : ℕ, s.frames ≤ k → (smootherStep^[k] (qx_smoother_set_target s t)).current = t)) ∧
    ((qx_smoother_next smootherDemo).2 = 6 ∧
      (qx_smoother_next (smootherStep smootherDemo)).2 = 7 ∧
      (qx_smoother_next (smootherStep (smootherStep smootherDemo))).2 = 8 ∧
      (qx_smoother_next (smootherStep (smootherStep (smootherStep smootherDemo)))).2 = 9 ∧
      (qx_smoother_next
        (smootherStep (smootherStep (smootherStep (smootherStep smootherDemo))))).2 = 9 ∧
      smootherStep (smootherStep (smootherStep (smootherStep (smootherStep smootherDemo)))) =
        smootherStep (smootherStep (smootherStep (smootherStep smootherDemo)))) := by
  have hst : qx_smoother_set_target s t =
      ⟨s.current, t, (t - s.current) / (s.frames:ℚ), s.frames⟩ := rfl
  have hfne : ((s.frames:ℚ)) ≠ 0 := Nat.cast_ne_zero.mpr (by omega)
  have hfd : (s.frames:ℚ) * ((t - s.current) / (s.frames:ℚ)) = t - s.current := by field_simp
  have hreach : smootherStep^[s.frames] (qx_smoother_set_target s t) =
      ⟨t, t, (t - s.current) / (s.frames:ℚ), s.frames⟩ := by
    rw [hst, smoother_closed_form s.current t s.frames hf s.frames le_rfl, QxSmoother.mk.injEq]
    exact ⟨by rw [hfd]; ring, rfl, rfl, rfl⟩
  have hstay : ∀ k : ℕ, s.frames ≤ k →
      smootherStep^[k] (qx_smoother_set_target s t) =
        ⟨t, t, (t - s.current) / (s.frames:ℚ), s.frames⟩ := by
    intro k hk
    have hsplit : k = (k - s.frames) + s.frames := by omega
    rw [hsplit, Function.iterate_add_apply, hreach, smoother_stay _ rfl]
  have hdemo : smootherDemo = ⟨5, 9, 1, 4⟩ := by
    norm_num [smootherDemo, qx_smoother_set_target, qx_smoother_init]
  have st1 : smootherStep (⟨5, 9, 1, 4⟩ : QxSmoother) = ⟨6, 9, 1, 4⟩ := by
    rw [smootherStep_eq]
    norm_num
  have st2 : smootherStep (⟨6, 9, 1, 4⟩ : QxSmoother) = ⟨7, 9, 1, 4⟩ := by
    rw [smootherStep_eq]
    norm_num
  have st3 : smootherStep (⟨7, 9, 1, 4⟩ : QxSmoother) = ⟨8, 9, 1, 4⟩ := by
    rw [smootherStep_eq]
    norm_num
  have st4 : smootherStep (⟨8, 9, 1, 4⟩ : QxSmoother) = ⟨9, 9, 1, 4⟩ := by
    rw [smootherStep_eq]
    norm_num
  have st5 : smootherStep (⟨9, 9, 1, 4⟩ : QxSmoother) = ⟨9, 9, 1, 4⟩ := by
    rw [smootherStep_eq]
    norm_num
  refine ⟨⟨?_, fun k hk => by rw [hstay k hk]⟩, ?_⟩
  · intro k
    constructor
    · intro hd0
      rw [hst] at hd0 ⊢
      dsimp only at hd0
      rcases le_or_lt k s.frames with hk | hk
      · rw [smoother_closed_form s.current t s.frames hf k hk]
        dsimp only
        have h1 : (k:ℚ) * ((t - s.current) / (s.frames:ℚ)) ≤
            (s.frames:ℚ) * ((t - s.current) / (s.frames:ℚ)) :=
          mul_le_mul_of_nonneg_right (by exact_mod_cast hk) hd0
        rw [hfd] at h1
        linarith
      · rw [← hst, hstay k (le_of_lt hk)]
    · intro hd0
      rw [hst] at hd0 ⊢
      dsimp only at hd0
      rcases le_or_lt k s.frames with hk | hk
      · rw [smoother_closed_form s.current t s.frames hf k hk]
        dsimp only
        have h1 : (s.frames:ℚ) * ((t - s.current) / (s.frames:ℚ)) ≤
            (k:ℚ) * ((t - s.current) / (s.frames:ℚ)) :=
          mul_le_mul_of_nonpos_right (by exact_mod_cast hk) hd0
        rw [hfd] at h1
        linarith
      · rw [← hst, hstay k (le_of_lt hk)]
  · rw [hdemo]
    rw [qx_smoother_next_val, qx_smoother_next_val, qx_smoother_next_val,
      qx_smoother_next_val, qx_smoother_next_val]
    rw [st1, st2, st3, st4, st5]
    exact ⟨rfl, rfl, rfl, rfl, rfl, rfl⟩

/-- Claim C2, witness: the hypotheses hold for the worked-example smoother
(frames 4 ≥ 1, target 9), and its fourth `next` call lands exactly on 9. -/
theorem C2_smoother_no_overshoot_witness :
    1 ≤ (qx_smoother_init 5 4).frames ∧
      (smootherStep^[4] (qx_smoother_set_target (qx_smoother_init 5 4) 9)).current = 9 :=
  ⟨by norm_num [qx_smoother_init],
    ((C2_smoother_no_overshoot (qx_smoother_init 5 4) 9
        (by norm_num [qx_smoother_init])).1.2 4 (by norm_num [qx_smoother_init]))⟩

theorem wrapLoopNeg_mono : ∀ (n n' : ℕ) (x m y : ℚ), n ≤ n' →
    wrapLoopNeg n x m = some y → wrapLoopNeg n' x m = some y := by
  intro n
  induction n with
  | zero =>
    intro n' x m y _ h
    exact absurd h (by simp [wrapLoopNeg])
  | succ n ih =>
    intro n' x m y hle h
    obtain ⟨n'', rfl⟩ : ∃ n'', n' = n'' + 1 := ⟨n' - 1, by omega⟩
    simp only [wrapLoopNeg] at h ⊢
    by_cases hx : x < 0
    · rw [if_pos hx] at h ⊢
      exact ih n'' (x + m) m y (by omega) h
    · rw [if_neg hx] at h ⊢
      exact h

theorem wrapLoopPos_mono : ∀ (n n' : ℕ) (x m y : ℚ), n ≤ n' →
    wrapLoopPos n x m = some y → wrapLoopPos n' x m = some y := by
  intro n
  induction n with
  | zero =>
    intro n' x m y _ h
    exact absurd h (by simp [wrapLoopPos])
  | succ n ih =>
    intro n' x m y hle h
    obtain ⟨n'', rfl⟩ : ∃ n'', n' = n'' + 1 := ⟨n' - 1, by omega⟩
    simp only [wrapLoopPos] at h ⊢
    by_cases hx : x ≥ m
    · rw [if_pos hx] at h ⊢
      exact ih n'' (x - m) m y (by omega) h
    · rw [if_neg hx] at h ⊢
      exact h

theorem wrapLoopNeg_term (m : ℚ) (hm : 0 < m) :
    ∀ (n : ℕ) (x : ℚ), -(n:ℚ) * m ≤ x →
      ∃ y, wrapLoopNeg (n+1) x m = some y ∧ 0 ≤ y ∧ ∃ j : ℤ, y = x + j * m := by
  intro n
  induction n with
  | zero =>
    intro x hx
    norm_num at hx
    refine ⟨x, ?_, hx, 0, by push_cast; ring⟩
    simp only [wrapLoopNeg]
    rw [if_neg (not_lt.mpr hx)]
  | succ n ih =>
    intro x hx
    by_cases hneg : x < 0
    · have hx' : -(n:ℚ) * m ≤ x + m := by push_cast at hx ⊢; linarith
      obtain ⟨y, hy, hy0, j, hj⟩ := ih (x + m) hx'
      refine ⟨y, ?_, hy0, j + 1, by rw [hj]; push_cast; ring⟩
      simp only [wrapLoopNeg]
      rw [if_pos hneg]
      exact hy
    · push_neg at hneg
      refine ⟨x, ?_, hneg, 0, by push_cast; ring⟩
      simp only [wrapLoopNeg]
      rw [if_neg (not_lt.mpr hneg)]

theorem wrapLoopPos_term (m : ℚ) (hm : 0 < m) :
    ∀ (n : ℕ) (x : ℚ), 0 ≤ x → x < ((n:ℚ) + 1) * m →
      ∃ y, wrapLoopPos (n+1) x m = some y ∧ 0 ≤ y ∧ y < m ∧ ∃ j : ℤ, y = x - j * m := by
  intro n
  induction n with
  | zero =>
    intro x h0 hx
    norm_num at hx
    refine ⟨x, ?_, h0, hx, 0, by push_cast; ring⟩
    simp only [wrapLoopPos]
    rw [if_neg (not_le.mpr hx)]
  | succ n ih =>
    intro x h0 hx
    by_cases hge : x ≥ m
    · have h0' : 0 ≤ x - m := by linarith
      have hx' : x - m < ((n:ℚ) + 1) * m := by push_cast at hx ⊢; linarith
      obtain ⟨y, hy, hy0, hym, j, hj⟩ := ih (x - m) h0' hx'
      refine ⟨y, ?_, hy0, hym, j + 1, by rw [hj]; push_cast; ring⟩
      simp only [wrapLoopPos]
      rw [if_pos hge]
      exact hy
    · push_neg at hge
      refine ⟨x, ?_, h0, hge, 0, by push_cast; ring⟩
      simp only [wrapLoopPos]
      rw [if_neg (not_le.mpr hge)]

theorem wrapLoopNeg_zero_stuck : ∀ n : ℕ, wrapLoopNeg n (-(1/2)) 0 = none := by
  intro n
  induction n with
  | zero => rfl
  | succ n ih =>
    simp only [wrapLoopNeg]
    rw [if_pos (by norm_num : (-(1/2) : ℚ) < 0), show (-(1/2) : ℚ) + 0 = -(1/2) by ring]
    exact ih

/-- Claim C7, counterexample: `qx_wrapf` does not terminate for every `max`:
at `x = -1/2`, `max = 0` the first loop adds 0 forever, so no fuel suffices. -/
theorem C7_wrapf_counterexample : qx_wrapf_diverges (-(1/2)) 0 := by
  intro fuel
  unfold qx_wrapf
  rw [wrapLoopNeg_zero_stuck fuel]
  rfl

/-- Claim C7, amended: for every `x` and every `max > 0`, `qx_wrapf` terminates
(some fuel suffices) and returns `y` with `0 ≤ y < max` differing from `x` by
an integer multiple of `max`; in particular `wrap(-1/2, 1) = 1/2` and
`wrap(3/2, 1) = 1/2`. -/
theorem C7_wrapf_terminating (x m : ℚ) (hm : 0 < m) :
    (∃ fuel y, qx_wrapf fuel x m = some y ∧ 0 ≤ y ∧ y < m ∧ ∃ j : ℤ, x - y = j * m) ∧
      qx_wrapf 2 (-(1/2)) 1 = some (1/2) ∧ qx_wrapf 2 (3/2) 1 = some (1/2) := by
  refine ⟨?_, by norm_num [qx_wrapf, wrapLoopNeg, wrapLoopPos],
    by norm_num [qx_wrapf, wrapLoopNeg, wrapLoopPos]⟩
  have h1 : -((⌈(-x)/m⌉₊ : ℚ)) * m ≤ x := by
    have hle : (-x)/m ≤ (⌈(-x)/m⌉₊ : ℚ) := Nat.le_ceil _
    have h2 : -x ≤ (⌈(-x)/m⌉₊ : ℚ) * m := by
      rw [div_le_iff₀ hm] at hle
      linarith
    linarith
  obtain ⟨y1, hy1, hy10, j1, hj1⟩ := wrapLoopNeg_term m hm ⌈(-x)/m⌉₊ x h1
  have h2 : y1 < ((⌈y1/m⌉₊ : ℚ) + 1) * m := by
    have hle : y1/m ≤ (⌈y1/m⌉₊ : ℚ) := Nat.le_ceil _
    rw [div_le_iff₀ hm] at hle
    nlinarith
  obtain ⟨y, hy, hy0, hym, j2, hj2⟩ := wrapLoopPos_term m hm ⌈y1/m⌉₊ y1 hy10 h2
  refine ⟨max (⌈(-x)/m⌉₊ + 1) (⌈y1/m⌉₊ + 1), y, ?_, hy0, hym, j2 - j1, ?_⟩
  · unfold qx_wrapf
    rw [wrapLoopNeg_mono (⌈(-x)/m⌉₊ + 1) _ x m y1 (le_max_left _ _) hy1]
    exact wrapLoopPos_mono (⌈y1/m⌉₊ + 1) _ y1 m y (le_max_right _ _) hy
  · rw [hj2, hj1]
    push_cast
    ring

/-- Claim C7, witness: the amended statement applied at `x = -5`, `max = 2`. -/
theorem C7_wrapf_terminating_witness :
    (0:ℚ) < 2 ∧
      ((∃ fuel y, qx_wrapf fuel (-5) 2 = some y ∧ 0 ≤ y ∧ y < 2 ∧
          ∃ j : ℤ, (-5:ℚ) - y = j * 2) ∧
        qx_wrapf 2 (-(1/2)) 1 = some (1/2) ∧ qx_wrapf 2 (3/2) 1 = some (1/2)) :=
  ⟨by norm_num, C7_wrapf_terminating (-5) 2 (by norm_num)⟩

end QxDSP
